import Mathlib

set_option maxRecDepth 8192

/-!
Verification of the QOI encoder in `src/src/main.rs` (repository Spijkerberg/QOI).

The source implements, inside `main`, a per-pixel chunk-selection loop over a
fixed 12-pixel input, together with the pixel type `RGBA`, its `hash`, the
64-slot color cache `Encountered`, and the chunk enum `QoiOps`.  We embed these
shallowly: `u8` channels become `Fin 256`, the `u32` hash arithmetic is Nat
arithmetic with an explicit `% 2 ^ 32`, the cache array becomes a 64-element
list, and the loop body becomes the step function `encodeStep` folded over the
pixel list.  The decoder does not exist in the source; where a claim needs it,
it is modelled from the specification (see `decodeStep`).
-/

/-- Pixel with four 8-bit channels, embedding `struct RGBA` (fields `r g b a : u8`). -/
structure RGBA where
  r : Fin 256
  g : Fin 256
  b : Fin 256
  a : Fin 256
deriving DecidableEq

/-- `RGBA::new()`: the default pixel, opaque black `(0, 0, 0, 0xFF)`. -/
def RGBA.new : RGBA := ⟨0, 0, 0, 255⟩

/-- `RGBA::hash()`: the sum `r*3 + g*5 + b*7 + a*11` computed in `u32`
(hence the explicit `% 2 ^ 32`), reduced `% 64`. -/
def RGBA.hash (p : RGBA) : Nat :=
  ((p.r.val * 3 + p.g.val * 5 + p.b.val * 7 + p.a.val * 11) % 2 ^ 32) % 64

/-- `From<u32> for RGBA`: unpack the four channel bytes little-endian,
`r` from bits 0..7 up to `a` from bits 24..31, each masked with `0xFF`. -/
def RGBA.fromU32 (v : Nat) : RGBA :=
  ⟨⟨(v >>> (0 * 8)) &&& 0xFF, Nat.lt_succ_of_le Nat.and_le_right⟩,
   ⟨(v >>> (1 * 8)) &&& 0xFF, Nat.lt_succ_of_le Nat.and_le_right⟩,
   ⟨(v >>> (2 * 8)) &&& 0xFF, Nat.lt_succ_of_le Nat.and_le_right⟩,
   ⟨(v >>> (3 * 8)) &&& 0xFF, Nat.lt_succ_of_le Nat.and_le_right⟩⟩

/-- The chunk enum `QoiOps`.  The `run` field is a `u8` in the source, so the
encoder increments it modulo 256; `index` carries the 6-bit cache index.
`diff`, `luma` and `rgb` exist in the source enum but are never constructed by
the encoder (their branches are unimplemented); the decoder model reads their
fields in the bit-layout (biased) convention of the specification. -/
inductive QoiOp where
  | run (n : Nat)
  | index (i : Nat)
  | diff (dr dg db : Nat)
  | luma (dg drdg drdb : Nat)
  | rgb (red green blue : Fin 256)
  | rgba (red green blue alpha : Fin 256)
deriving DecidableEq

/-- The 64-slot color cache `struct Encountered([RGBA; 64])`, as a list of
length 64. -/
abbrev Encountered := List RGBA

/-- `Encountered::new()`: all 64 slots hold the default pixel. -/
def Encountered.new : Encountered := List.replicate 64 RGBA.new

/-- `Encountered::contains`: the source calls slice `contains`, i.e. membership
anywhere in the 64-slot array (not only at slot `hash(p)`). -/
def Encountered.contains (c : Encountered) (p : RGBA) : Bool :=
  decide (p ∈ c)

/-- `Encountered::set`: overwrite slot `hash(p)` with `p`. -/
def Encountered.set (c : Encountered) (p : RGBA) : Encountered :=
  List.set c p.hash p

/-- The encoder's mutable state in `main`: the emitted chunk vector, the color
cache, and the previous pixel. -/
structure EncState where
  chunks : List QoiOp
  encountered : Encountered
  previous : RGBA
deriving DecidableEq

/-- One iteration of the encoder loop in `main` (src/src/main.rs, lines
261-280): if the pixel equals the previous one, extend the last chunk when it
is a Run (incrementing its `u8` counter), start a new Run of 1 when the last
chunk is not a Run, and do nothing when no chunk has been emitted yet;
otherwise, on a cache hit emit an Index chunk with `hash(pixel)`, else store
into the cache and emit a raw RGBA chunk. -/
def encodeStep (s : EncState) (rgba : RGBA) : EncState :=
  if rgba = s.previous then
    match s.chunks.getLast? with
    | none => s
    | some (QoiOp.run n) =>
        { s with chunks := s.chunks.dropLast ++ [QoiOp.run ((n + 1) % 256)] }
    | some _ => { s with chunks := s.chunks ++ [QoiOp.run 1] }
  else if Encountered.contains s.encountered rgba then
    { s with chunks := s.chunks ++ [QoiOp.index rgba.hash], previous := rgba }
  else
    { s with
        chunks := s.chunks ++ [QoiOp.rgba rgba.r rgba.g rgba.b rgba.a],
        encountered := Encountered.set s.encountered rgba,
        previous := rgba }

/-- The encoder's initial state: no chunks, fresh cache, default previous pixel. -/
def initState : EncState := ⟨[], Encountered.new, RGBA.new⟩

/-- The whole encoding pass of `main`: fold the loop body over the pixels. -/
def encodePixels (ps : List RGBA) : EncState :=
  ps.foldl encodeStep initState

/-- The 12-word pixel input hard-coded in `main`. -/
def mainPixelWords : List Nat :=
  [0xFFAFAFAF, 0xFFAFAFAF, 0xFFAFAFAF, 0xFFAAAFAF, 0xFFAFAFAF, 0xFFAFAFAF,
   0xFFAFAFAF, 0xFFAFAFAF, 0xFFAFAFAF, 0xFFAFAFAF, 0xFFAFAFAF, 0xFFAFAFAF]

/-- The 12 pixels of `main`, after the `From<u32>` unpacking. -/
def mainPixels : List RGBA := mainPixelWords.map RGBA.fromU32

/-- Wrapping byte addition, for the decoder's delta chunks. -/
def byteAdd (x : Fin 256) (n : Nat) : Fin 256 :=
  ⟨(x.val + n) % 256, Nat.mod_lt _ (by norm_num)⟩

/-- The decoder's state: pixels produced so far, color cache, previous pixel. -/
structure DecState where
  pixels : List RGBA
  encountered : Encountered
  previous : RGBA
deriving DecidableEq

/-- Modelled from the spec: the chunk decoder (spec section 4.4) is absent from
src/.  A Run chunk of length n reproduces n copies of the previous pixel with
no cache interaction; an Index chunk emits cache slot i and skips the cache
store; the other chunks reconstruct a pixel from the previous one (delta fields
in the biased layout of spec section 6: Diff deltas biased +2, Luma green delta
biased +32 and the red/blue deltas-from-green biased +8), store it
unconditionally, and update the previous pixel. -/
def decodeStep (s : DecState) (op : QoiOp) : DecState :=
  match op with
  | QoiOp.run n =>
      { s with pixels := s.pixels ++ List.replicate n s.previous }
  | QoiOp.index i =>
      let p := List.getD s.encountered i RGBA.new
      { s with pixels := s.pixels ++ [p], previous := p }
  | QoiOp.diff dr dg db =>
      let p : RGBA := ⟨byteAdd s.previous.r (dr + 254), byteAdd s.previous.g (dg + 254),
                       byteAdd s.previous.b (db + 254), s.previous.a⟩
      { s with pixels := s.pixels ++ [p], encountered := Encountered.set s.encountered p,
               previous := p }
  | QoiOp.luma dg drdg drdb =>
      let p : RGBA := ⟨byteAdd s.previous.r (dg + drdg + 216), byteAdd s.previous.g (dg + 224),
                       byteAdd s.previous.b (dg + drdb + 216), s.previous.a⟩
      { s with pixels := s.pixels ++ [p], encountered := Encountered.set s.encountered p,
               previous := p }
  | QoiOp.rgb red green blue =>
      let p : RGBA := ⟨red, green, blue, s.previous.a⟩
      { s with pixels := s.pixels ++ [p], encountered := Encountered.set s.encountered p,
               previous := p }
  | QoiOp.rgba red green blue alpha =>
      let p : RGBA := ⟨red, green, blue, alpha⟩
      { s with pixels := s.pixels ++ [p], encountered := Encountered.set s.encountered p,
               previous := p }

/-- Modelled from the spec: decoding a chunk stream from the fresh state. -/
def decode (ops : List QoiOp) : List RGBA :=
  (ops.foldl decodeStep ⟨[], Encountered.new, RGBA.new⟩).pixels

/-- The number of source pixels a chunk accounts for: a Run of length n stands
for n pixels, every other chunk for one pixel. -/
def opCount (op : QoiOp) : Nat :=
  match op with
  | QoiOp.run n => n
  | _ => 1

/-- The number of source pixels a chunk list accounts for. -/
def chunksCount (l : List QoiOp) : Nat :=
  (l.map opCount).sum

/-- The pixels stored into the cache during the encoding pass, in order: the
encoder stores exactly in its cache-miss branch (`Encountered::set`). -/
def encodeStepLog (sl : EncState × List RGBA) (p : RGBA) : EncState × List RGBA :=
  (encodeStep sl.1 p,
    if p = sl.1.previous then sl.2
    else if Encountered.contains sl.1.encountered p then sl.2
    else sl.2 ++ [p])

/-- The store log of a whole encoding pass. -/
def encodeLog (ps : List RGBA) : List RGBA :=
  (ps.foldl encodeStepLog (initState, [])).2

/-- Replaying a store log against a fresh cache. -/
def buildCache (log : List RGBA) : Encountered :=
  log.foldl (fun c p => Encountered.set c p) Encountered.new

/-- The most recently stored pixel of a store log whose hash is `i`, or the
default pixel when the log holds none. -/
def mostRecent (log : List RGBA) (i : Nat) : RGBA :=
  (List.getLast? (log.filter (fun p => RGBA.hash p == i))).getD RGBA.new

/-! ## Helper lemmas -/

theorem hash_lt (p : RGBA) : RGBA.hash p < 64 :=
  Nat.mod_lt _ (by norm_num)

theorem encodeStep_encountered_eqpix (s : EncState) (p : RGBA) (hp : p = s.previous) :
    (encodeStep s p).encountered = s.encountered := by
  unfold encodeStep
  rw [if_pos hp]
  split <;> rfl

theorem encodeStep_encountered_hit (s : EncState) (p : RGBA) (hp : ¬ p = s.previous)
    (hc : Encountered.contains s.encountered p = true) :
    (encodeStep s p).encountered = s.encountered := by
  unfold encodeStep
  rw [if_neg hp, if_pos hc]

theorem encodeStep_encountered_miss (s : EncState) (p : RGBA) (hp : ¬ p = s.previous)
    (hc : ¬ Encountered.contains s.encountered p = true) :
    (encodeStep s p).encountered = Encountered.set s.encountered p := by
  unfold encodeStep
  rw [if_neg hp, if_neg hc]

theorem foldl_set_length (log : List RGBA) : ∀ c : Encountered,
    (log.foldl (fun c p => Encountered.set c p) c).length = c.length := by
  induction log with
  | nil => intro c; rfl
  | cons p t ih =>
      intro c
      rw [List.foldl_cons, ih]
      simp [Encountered.set]

theorem buildCache_length (log : List RGBA) : (buildCache log).length = 64 := by
  show (log.foldl (fun c p => Encountered.set c p) Encountered.new).length = 64
  rw [foldl_set_length log Encountered.new]
  simp [Encountered.new]

theorem getD_set_eq_if (c : List RGBA) : ∀ (j i : Nat) (q d : RGBA), j < c.length →
    List.getD (List.set c j q) i d = if j = i then q else List.getD c i d := by
  induction c with
  | nil => intro j i q d hj; simp at hj
  | cons x xs ih =>
      intro j i q d hj
      cases j with
      | zero =>
          cases i with
          | zero => simp [List.set]
          | succ i => simp [List.set, List.getD_cons_succ]
      | succ j =>
          cases i with
          | zero => simp [List.set, List.getD_cons_zero]
          | succ i =>
              simp only [List.set, List.getD_cons_succ]
              rw [ih j i q d (by simpa using hj)]
              by_cases h : j = i <;> simp [h]

theorem getD_replicate (n i : Nat) (a : RGBA) :
    List.getD (List.replicate n a) i a = a := by
  induction n generalizing i with
  | zero => simp
  | succ n ih =>
      cases i with
      | zero => simp [List.replicate]
      | succ i =>
          rw [List.replicate, List.getD_cons_succ]
          exact ih i

theorem buildCache_concat (log : List RGBA) (p : RGBA) :
    buildCache (log ++ [p]) = Encountered.set (buildCache log) p := by
  simp [buildCache, List.foldl_append]

theorem mostRecent_concat (log : List RGBA) (p : RGBA) (i : Nat) :
    mostRecent (log ++ [p]) i = if RGBA.hash p = i then p else mostRecent log i := by
  by_cases h : RGBA.hash p = i
  · simp [mostRecent, List.filter_append, h, List.getLast?_concat]
  · simp [mostRecent, List.filter_append, h]

theorem buildCache_getD (log : List RGBA) (i : Nat) :
    List.getD (buildCache log) i RGBA.new = mostRecent log i := by
  induction log using List.reverseRecOn with
  | nil =>
      have h : buildCache [] = List.replicate 64 RGBA.new := rfl
      rw [h, getD_replicate]
      simp [mostRecent]
  | append_singleton l p ih =>
      rw [buildCache_concat, mostRecent_concat, Encountered.set,
        getD_set_eq_if (buildCache l) (RGBA.hash p) i p RGBA.new
          (by rw [buildCache_length]; exact hash_lt p), ih]

theorem foldl_encodeStepLog_fst (ps : List RGBA) : ∀ sl : EncState × List RGBA,
    (ps.foldl encodeStepLog sl).1 = ps.foldl encodeStep sl.1 := by
  induction ps with
  | nil => intro sl; rfl
  | cons p t ih =>
      intro sl
      rw [List.foldl_cons, List.foldl_cons, ih]
      rfl

theorem encodeStepLog_cache (sl : EncState × List RGBA) (p : RGBA)
    (h : sl.1.encountered = buildCache sl.2) :
    (encodeStepLog sl p).1.encountered = buildCache (encodeStepLog sl p).2 := by
  by_cases hp : p = sl.1.previous
  · simp only [encodeStepLog, if_pos hp]
    rw [encodeStep_encountered_eqpix sl.1 p hp]
    exact h
  · by_cases hc : Encountered.contains sl.1.encountered p = true
    · simp only [encodeStepLog, if_neg hp, if_pos hc]
      rw [encodeStep_encountered_hit sl.1 p hp hc]
      exact h
    · simp only [encodeStepLog, if_neg hp, if_neg hc]
      rw [encodeStep_encountered_miss sl.1 p hp hc, h, buildCache_concat]

theorem foldl_log_cache (ps : List RGBA) : ∀ sl : EncState × List RGBA,
    sl.1.encountered = buildCache sl.2 →
    (ps.foldl encodeStepLog sl).1.encountered = buildCache (ps.foldl encodeStepLog sl).2 := by
  induction ps with
  | nil => intro sl h; exact h
  | cons p t ih =>
      intro sl h
      rw [List.foldl_cons]
      exact ih _ (encodeStepLog_cache sl p h)

theorem encodeStep_count_le (s : EncState) (p : RGBA) :
    chunksCount (encodeStep s p).chunks ≤ chunksCount s.chunks + 1 := by
  unfold encodeStep
  split
  · split
    · omega
    · rename_i n heq
      rcases List.eq_nil_or_concat s.chunks with hnil | ⟨l, x, hcat⟩
      · rw [hnil] at heq
        simp at heq
      · rw [hcat, List.concat_eq_append, List.getLast?_concat] at heq
        injection heq with hx
        subst hx
        rw [hcat, List.concat_eq_append, List.dropLast_concat]
        simp [chunksCount, opCount]
        omega
    · simp [chunksCount, opCount]
  · split
    · simp [chunksCount, opCount]
    · simp [chunksCount, opCount]

theorem foldl_count_le (l : List RGBA) : ∀ s : EncState,
    chunksCount (l.foldl encodeStep s).chunks ≤ chunksCount s.chunks + l.length := by
  induction l with
  | nil => intro s; simp
  | cons p t ih =>
      intro s
      rw [List.foldl_cons, List.length_cons]
      have h1 := ih (encodeStep s p)
      have h2 := encodeStep_count_le s p
      omega

/-! ## Claims -/

/-- C1.  The round-trip property fails on the code: for the one-pixel input
equal to the default pixel (width 1, height 1), the encoder of `main` emits no
chunk at all, so decoding the encoding yields the empty pixel list instead of
the original one-pixel sequence. -/
theorem c1_roundtrip_fails_on_default_pixel :
    decode (encodePixels [RGBA.new]).chunks = [] ∧
      decode (encodePixels [RGBA.new]).chunks ≠ [RGBA.new] := by
  decide

/-- C2 counterexample.  `Encountered::contains` is not the single-slot test the
claim states: after storing the pixel `(64, 0, 0, 255)` — whose hash, 53,
equals the default pixel's hash — into a fresh cache, `contains` still returns
true for the default pixel (it lives in the other 63 slots), although slot
`hash(default) = 53` no longer holds it. -/
theorem c2_contains_not_slot_based :
    Encountered.contains (Encountered.set Encountered.new ⟨64, 0, 0, 255⟩) RGBA.new = true ∧
      List.getD (Encountered.set Encountered.new ⟨64, 0, 0, 255⟩)
        (RGBA.hash RGBA.new) RGBA.new ≠ RGBA.new := by
  decide

/-- C2 amended.  For every cache state and every pixel `p`,
`Encountered::contains` returns true iff at least one of the slots of the
array holds a pixel equal to `p` (whole-array membership, not only the slot at
index `hash(p)`). -/
theorem c2_contains_is_full_array_membership (c : Encountered) (p : RGBA) :
    Encountered.contains c p = true ↔ ∃ i, ∃ h : i < c.length, c.get ⟨i, h⟩ = p := by
  simp only [Encountered.contains, decide_eq_true_eq]
  constructor
  · intro hmem
    rcases List.mem_iff_get.mp hmem with ⟨n, hn⟩
    exact ⟨n.val, n.isLt, hn⟩
  · rintro ⟨i, h, hget⟩
    exact hget ▸ List.get_mem c i h

/-- C3.  The run counter is not bounded by 62: on a 64-pixel input consisting
of the pixel `(175, 175, 175, 255)` repeated (one RGBA chunk, then a run of
length 63), `QoiOpRun::add_run` drives the counter to 63 > 62 and the encoder
emits a single Run chunk of length 63 instead of the two Run chunks
(62 and 1) the claim requires. -/
theorem c3_run_counter_exceeds_62 :
    (encodePixels (List.replicate 64 ⟨175, 175, 175, 255⟩)).chunks =
      [QoiOp.rgba 175 175 175 255, QoiOp.run 63] ∧ 62 < 63 := by
  decide

/-- C4.  On the 12-pixel input hard-coded in `main` (unpacked little-endian in
channel order r, g, b, a), the encoder produces exactly: an RGBA chunk for
`(175, 175, 175, 255)`, a Run chunk of length 2, an RGBA chunk for
`(175, 175, 170, 255)`, an Index chunk carrying hash 54 (no bucket collision
evicted the returning color), and a Run chunk of length 7 covering the
remaining repeats. -/
theorem c4_main_example_chunks :
    (encodePixels mainPixels).chunks =
      [QoiOp.rgba 175 175 175 255, QoiOp.run 2, QoiOp.rgba 175 175 170 255,
       QoiOp.index 54, QoiOp.run 7] := by
  decide

/-- C5.  Cache slot invariant: after encoding any pixel sequence, the cache
still has its 64 slots and slot `i` holds the most recently stored pixel whose
hash is `i` (the encoder stores only via `Encountered::set`, recorded by the
store log `encodeLog`), or the default pixel if no pixel hashing to `i` was
stored.  Quantifying over all input prefixes, every encoder step preserves the
invariant. -/
theorem c5_cache_slot_invariant (ps : List RGBA) (i : Nat) (_hi : i < 64) :
    (encodePixels ps).encountered.length = 64 ∧
      List.getD (encodePixels ps).encountered i RGBA.new = mostRecent (encodeLog ps) i := by
  have hfst : (ps.foldl encodeStepLog (initState, [])).1 = encodePixels ps := by
    rw [foldl_encodeStepLog_fst]
    rfl
  have hcache : (encodePixels ps).encountered
      = buildCache (ps.foldl encodeStepLog (initState, [])).2 := by
    rw [← hfst]
    exact foldl_log_cache ps (initState, []) rfl
  refine ⟨?_, ?_⟩
  · rw [hcache, buildCache_length]
  · rw [hcache, buildCache_getD]
    rfl

/-- C5 witness: evaluated at the one-pixel input `(175, 175, 175, 255)`
(stored at slot 54). -/
theorem c5_cache_slot_invariant_witness :
    (encodePixels [⟨175, 175, 175, 255⟩]).encountered.length = 64 ∧
      List.getD (encodePixels [⟨175, 175, 175, 255⟩]).encountered 54 RGBA.new
        = mostRecent (encodeLog [⟨175, 175, 175, 255⟩]) 54 :=
  c5_cache_slot_invariant [⟨175, 175, 175, 255⟩] 54 (by decide)

/-- C6.  Index-hit step: when the pixel differs from the previous pixel and the
cache lookup (`Encountered::contains`) succeeds, the encoder appends exactly an
Index chunk carrying `hash(pixel)`, leaves the cache unchanged, and sets the
previous pixel to the current pixel. -/
theorem c6_index_hit_step (s : EncState) (p : RGBA)
    (hne : p ≠ s.previous) (hin : Encountered.contains s.encountered p = true) :
    (encodeStep s p).chunks = s.chunks ++ [QoiOp.index p.hash] ∧
      (encodeStep s p).encountered = s.encountered ∧
      (encodeStep s p).previous = p := by
  unfold encodeStep
  rw [if_neg hne, if_pos hin]
  exact ⟨rfl, rfl, rfl⟩

/-- C6 witness: after encoding `(175,175,175,255)` then `(175,175,170,255)`,
the first pixel differs from the previous pixel and is cached, so the step on
it appends `Index 54`. -/
theorem c6_index_hit_step_witness :
    (encodeStep (encodePixels [⟨175, 175, 175, 255⟩, ⟨175, 175, 170, 255⟩])
        ⟨175, 175, 175, 255⟩).chunks
      = (encodePixels [⟨175, 175, 175, 255⟩, ⟨175, 175, 170, 255⟩]).chunks
          ++ [QoiOp.index (RGBA.hash ⟨175, 175, 175, 255⟩)] ∧
    (encodeStep (encodePixels [⟨175, 175, 175, 255⟩, ⟨175, 175, 170, 255⟩])
        ⟨175, 175, 175, 255⟩).encountered
      = (encodePixels [⟨175, 175, 175, 255⟩, ⟨175, 175, 170, 255⟩]).encountered ∧
    (encodeStep (encodePixels [⟨175, 175, 175, 255⟩, ⟨175, 175, 170, 255⟩])
        ⟨175, 175, 175, 255⟩).previous = ⟨175, 175, 175, 255⟩ :=
  c6_index_hit_step (encodePixels [⟨175, 175, 175, 255⟩, ⟨175, 175, 170, 255⟩])
    ⟨175, 175, 175, 255⟩ (by decide) (by decide)

/-- C7 counterexample.  After encoding `(1,1,1,255)` then `(1,1,1,0)`, the
pixel `(1,1,1,255)` differs from the previous pixel and differs in alpha, yet
the encoder step on it appends an Index chunk (index 4), not an RGBA chunk:
an alpha change does not force an RGBA chunk when the cache lookup succeeds. -/
theorem c7_alpha_change_can_emit_index :
    (⟨1, 1, 1, 255⟩ : RGBA) ≠ (encodePixels [⟨1, 1, 1, 255⟩, ⟨1, 1, 1, 0⟩]).previous ∧
      (⟨1, 1, 1, 255⟩ : RGBA).a ≠ (encodePixels [⟨1, 1, 1, 255⟩, ⟨1, 1, 1, 0⟩]).previous.a ∧
      (encodeStep (encodePixels [⟨1, 1, 1, 255⟩, ⟨1, 1, 1, 0⟩]) ⟨1, 1, 1, 255⟩).chunks =
        (encodePixels [⟨1, 1, 1, 255⟩, ⟨1, 1, 1, 0⟩]).chunks ++ [QoiOp.index 4] := by
  decide

/-- C7 amended.  When the pixel differs from the previous pixel, its alpha
channel differs from the previous pixel's alpha, and the cache lookup fails,
the encoder emits an RGBA chunk for that pixel, regardless of the
color-channel deltas. -/
theorem c7_alpha_change_rgba_on_cache_miss (s : EncState) (p : RGBA)
    (hne : p ≠ s.previous) (_ha : p.a ≠ s.previous.a)
    (hmiss : ¬ Encountered.contains s.encountered p = true) :
    (encodeStep s p).chunks = s.chunks ++ [QoiOp.rgba p.r p.g p.b p.a] := by
  unfold encodeStep
  rw [if_neg hne, if_neg hmiss]

/-- C7 witness: from the initial state, the pixel `(0, 0, 0, 0)` differs from
the default previous pixel in alpha only and is not cached, so its step emits
an RGBA chunk. -/
theorem c7_alpha_change_rgba_on_cache_miss_witness :
    (encodeStep initState ⟨0, 0, 0, 0⟩).chunks =
      initState.chunks ++ [QoiOp.rgba 0 0 0 0] :=
  c7_alpha_change_rgba_on_cache_miss initState ⟨0, 0, 0, 0⟩
    (by decide) (by decide) (by decide)

/-- C8.  If the pixel equals the previous pixel while no chunk has been emitted
yet, the encoder step changes nothing (no chunk, no cache write, no
previous-pixel update); consequently, for every input whose first pixel is the
default pixel, the chunk stream accounts for strictly fewer pixels than the
input contains. -/
theorem c8_silent_first_pixel (s : EncState) (p : RGBA) (ps : List RGBA)
    (hp : p = s.previous) (hc : s.chunks = []) (hs : ps.head? = some RGBA.new) :
    encodeStep s p = s ∧ chunksCount (encodePixels ps).chunks < ps.length := by
  constructor
  · unfold encodeStep
    rw [if_pos hp, hc]
    rfl
  · rcases ps with _ | ⟨q, t⟩
    · simp at hs
    · simp only [List.head?_cons, Option.some.injEq] at hs
      subst hs
      have hstep : encodeStep initState RGBA.new = initState := by decide
      rw [encodePixels, List.foldl_cons, hstep]
      have hb := foldl_count_le t initState
      have h0 : chunksCount initState.chunks = 0 := rfl
      rw [List.length_cons]
      omega

/-- C8 witness: the first step on the default pixel from the initial state is
the identity, and encoding the one-pixel input `[default]` accounts for 0 < 1
pixels. -/
theorem c8_silent_first_pixel_witness :
    encodeStep initState RGBA.new = initState ∧
      chunksCount (encodePixels [RGBA.new]).chunks < 1 :=
  c8_silent_first_pixel initState RGBA.new [RGBA.new] rfl rfl rfl

/-- C9.  For every pixel, the `u32` hash sum `r*3 + g*5 + b*7 + a*11` is far
below `2^32` (no overflow), and `hash(p)` is strictly below 64, hence below the
length of the fresh 64-slot cache: the out-of-bounds branch of the slot write
in `Encountered::set` is unreachable. -/
theorem c9_hash_lt_64 (p : RGBA) :
    p.r.val * 3 + p.g.val * 5 + p.b.val * 7 + p.a.val * 11 < 2 ^ 32 ∧
      RGBA.hash p < 64 ∧ RGBA.hash p < Encountered.new.length := by
  refine ⟨?_, hash_lt p, ?_⟩
  · have hr := p.r.isLt
    have hg := p.g.isLt
    have hb := p.b.isLt
    have ha := p.a.isLt
    omega
  · have h : Encountered.new.length = 64 := by simp [Encountered.new]
    rw [h]
    exact hash_lt p

/-- C10.  The encoder is deterministic: on equal pixel sequences it produces
equal chunk sequences, equal final caches, and equal final previous pixels
(the embedded loop body `encodeStep` is a pure function of state and pixel). -/
theorem c10_encoder_deterministic (ps qs : List RGBA) (h : ps = qs) :
    (encodePixels ps).chunks = (encodePixels qs).chunks ∧
      (encodePixels ps).encountered = (encodePixels qs).encountered ∧
      (encodePixels ps).previous = (encodePixels qs).previous := by
  subst h
  exact ⟨rfl, rfl, rfl⟩

/-- C10 witness: evaluated at the one-pixel input `[default]`. -/
theorem c10_encoder_deterministic_witness :
    (encodePixels [RGBA.new]).chunks = (encodePixels [RGBA.new]).chunks ∧
      (encodePixels [RGBA.new]).encountered = (encodePixels [RGBA.new]).encountered ∧
      (encodePixels [RGBA.new]).previous = (encodePixels [RGBA.new]).previous :=
  c10_encoder_deterministic [RGBA.new] [RGBA.new] rfl
